import Mathlib

/-!
Verification development for the AccordPreprocTools HOOF++ core
(dealiasing and superobing of polar-volume radar data).

The definitions below are a shallow embedding of the C++ source:

* `double` values are modelled by `ℚ` (exact arithmetic); a possibly-NaN
  double is modelled by `Option ℚ` with `none` playing the role of NaN.
  Every C comparison `x < y` on doubles is false when an operand is NaN,
  which the embedding reproduces by matching on the `Option`.
* C `int` casts of doubles truncate toward zero (`cTrunc`).
* 3-D cubes are modelled by nested lists or by index functions, as noted
  at each definition.

Sources: `HoofDealiaser.cpp`, `HoofSuperober.cpp`, `HoofAux.h`,
`HoofAux.cpp`, `HoofTypes.h`.
-/

namespace Hoof

/-- C cast of a double to `int`: truncation toward zero. -/
def cTrunc (q : ℚ) : ℤ := if 0 ≤ q then ⌊q⌋ else ⌈q⌉

/-- HoofAux::dblEpsilon = 0.000000000001 (used by `HoofAux::eqDbl`). -/
def dblEpsilon : ℚ := 1/1000000000000

/-- HoofAux::Pi, the exact decimal literal from `HoofAux.cpp`. -/
def hoofPi : ℚ := 314159265358979323846 / 100000000000000000000

/-- hoof::iNaN from `HoofTypes.h`: `std::numeric_limits<int>::quiet_NaN()`.
For `int` this is value-initialization, i.e. the value 0; there is no NaN
for integers.  Arrays of Nyquist multipliers are initialized with it. -/
def iNaN : ℤ := 0

/-- HoofAux::eqDbl: equality of doubles up to `dblEpsilon`. -/
def eqDbl (a b : ℚ) : Bool := |a - b| ≤ dblEpsilon

/-- A 3-D measurement cube with NaN cells (`none` = NaN). -/
abbrev Cube := List (List (List (Option ℚ)))

/-- HoofAux::isallnan on a 3-D cube: true when every cell is NaN. -/
def isallnan (cube : Cube) : Bool :=
  cube.all (fun plane => plane.all (fun ray => ray.all (fun v => v.isNone)))

/-- The running minimum of the Nyquist velocities, from
`HoofDealiaser::calculateWindModelQtys`: `_vnyMin` starts at `+inf` and is
lowered by `if (vNy < _vnyMin) _vnyMin = vNy`.  `none` models the initial
infinity (the list of per-elevation `vny` values contains no NaN here). -/
def minVny (l : List ℚ) : Option ℚ :=
  l.foldl
    (fun acc v =>
      match acc with
      | none => some v
      | some a => if v < a then some v else some a)
    none

/-! ## Dealiaser: Nyquist unfolding (`HoofDealiaser::dealias`) -/

/-- The multiplier bound `nymax = (int)(maxWind / vnyMin)`. -/
def nyMult (maxWind vnyMin : ℚ) : ℤ := cTrunc (maxWind / vnyMin)

/-- The list of candidate multipliers `n = -nymax, …, nymax` in the order
the source loop visits them (empty when `nymax < 0`). -/
def nyList (N : ℤ) : List ℤ := (List.range (2*N+1).toNat).map (fun t : ℕ => (t : ℤ) - N)

/-- One step of the multiplier search for a single bin: the source keeps
`(mns, ns)` and replaces them on a strict improvement
`currMn < mns[i][j][k]`.  `none` in the first component models the initial
`mns = +inf` (any finite value improves on it). -/
def scanStep (vny w mv : ℚ) (st : Option ℚ × ℤ) (n : ℤ) : Option ℚ × ℤ :=
  let currMn := |mv + 2*vny*(n:ℚ) - w|
  match st.1 with
  | none => (some currMn, n)
  | some b => if currMn < b then (some currMn, n) else st

/-- The full multiplier scan for one bin with defined model `w` and
measurement `mv`: folds `scanStep` over `n = -N..N` starting from
`(+inf, iNaN)`.  The source's `n` loop is outermost and the per-bin state
is independent across bins, so per-bin the scan sees exactly this
ascending order. -/
def vnyScan (N : ℤ) (vny w mv : ℚ) : Option ℚ × ℤ :=
  (nyList N).foldl (scanStep vny w mv) (none, iNaN)

/-- The Nyquist multiplier `ns[e][a][r]` finally stored for a bin.  When
the wind model or the measurement is NaN the inner update never runs and
the array keeps its initial `iNaN` (= 0). -/
def nsBin (N : ℤ) (vny : ℚ) (wm m : Option ℚ) : ℤ :=
  match wm, m with
  | some w, some mv => (vnyScan N vny w mv).2
  | _, _ => iNaN

/-- The dealiased value `dvrads[e][a][r]` for one bin, from the final loop
of `HoofDealiaser::dealias`: the guard is
`!(isnan(m) || isnan(n) || isnan(D))`, and since `n` is an `int`,
`isnan(n)` is always false — only the measurement and `D` gate the write.
The written value is `m + 2*n*vny` with `n = ns[e][a][r]`. -/
def dealiasBin (N : ℤ) (vny : ℚ) (wm m d : Option ℚ) : Option ℚ :=
  match m, d with
  | some mv, some _ => some (mv + 2*((nsBin N vny wm (some mv) : ℤ) : ℚ)*vny)
  | _, _ => none

/-! ## Dealiaser: height sectors (`HoofDealiaser::determineHeightSectors`) -/

/-- The ceiling `zmax = zdatamax < zMax ? zdatamax : zMax`. -/
def zceilOf (zdatamax zMax : ℚ) : ℚ := if zdatamax < zMax then zdatamax else zMax

/-- The number of height sectors `nl = (int)((zmax - zstart)/dz) + 1`. -/
def heightSectorCount (zceil zstart dz : ℚ) : ℤ := cTrunc ((zceil - zstart)/dz) + 1

/-- The sector index `idx = (int)((z - zstart)/dz)` of one bin. -/
def heightSectorIdx (zstart dz z : ℚ) : ℤ := cTrunc ((z - zstart)/dz)

/-- Eligibility of a bin in `determineHeightSectors`: height, measurement
and `D` all non-NaN, and height strictly below the ceiling. -/
def eligibleBin (z m d : Option ℚ) (zceil : ℚ) : Prop :=
  ∃ zv, z = some zv ∧ m.isSome ∧ d.isSome ∧ zv < zceil

/-! ## Superober: metadata (`HoofSuperober::prepareMetadata`) -/

/-- The per-elevation metadata of one moment that `prepareMetadata`
reads and writes. -/
structure MomentMeta where
  naz : List ℕ
  nr : List ℕ
  rscales : List ℚ
  rstarts : List ℚ

/-- `prepareMetadata`, per moment: for each elevation
`nr' = nr / binF` and `naz' = naz / rayF` (C integer division),
`rscale' = binF * rscale`, `rstart' = rstart`.  The same code runs for
DBZ and for VRAD. -/
def prepareMeta (binF rayF : ℕ) (m : MomentMeta) : MomentMeta where
  naz := m.naz.map (fun a => a / rayF)
  nr := m.nr.map (fun r => r / binF)
  rscales := m.rscales.map (fun rs => (binF : ℚ) * rs)
  rstarts := m.rstarts

/-! ## Superober: bin borders (`HoofSuperober::_calculateBinBorders`) -/

/-- The border push loop: `for (j = 0; j < nr + binF; j += binF) push(j)`,
i.e. the multiples of `binF` below `nr + binF`. -/
def rawBorders (nr binF : ℕ) : List ℕ :=
  (List.range ((nr + binF - 1)/binF + 1)).map (fun j => j * binF)

/-- Range bin borders: the push loop followed by
`if (back > nr) pop_back()`. -/
def calcRangeBorders (nr binF : ℕ) : List ℕ :=
  let l := rawBorders nr binF
  if nr < l.getLastD 0 then l.dropLast else l

/-- `zmax = (int)((rayF - 1)/2)`. -/
def zmaxOf (rayF : ℕ) : ℕ := (rayF - 1) / 2

/-- The arc bound `L = 360*360*maxArcSize / (2*Pi*(naz*binF)*rscale)`. -/
def arcL (naz binF : ℕ) (rscale mas : ℚ) : ℚ :=
  360*360*mas / (2*hoofPi*((naz*binF : ℕ) : ℚ)*rscale)

/-- `limIdx = floor(L/newFac - 1.0) + 1` with `newFac = 2*(zmax - z) + 1`
(`zmax - z` is C int subtraction with `z ≤ zmax`, matching `ℕ`
subtraction here). -/
def limIdxRaw (L : ℚ) (zmax z : ℕ) : ℤ := ⌊L/((2*(zmax - z) + 1 : ℕ) : ℚ) - 1⌋ + 1

/-- The clamp `if (limIdx >= currRangeBorders.size()) limIdx = size`.
The comparison is `int` against `size_t`, so a negative `limIdx` converts
to a huge unsigned value and is also clamped to `size`. -/
def limClamp (len : ℕ) (li : ℤ) : ℤ := if (len:ℤ) ≤ li ∨ li < 0 then (len:ℤ) else li

/-- The `limIdxs` build loop: starting from `[0]`, for each
`z = 0..zmax`, append the clamped limit index when it differs from the
current last element. -/
def buildLimGo (L : ℚ) (zmax len : ℕ) : List ℕ → List ℤ → List ℤ
  | [], acc => acc
  | z :: zs, acc =>
      let li := limClamp len (limIdxRaw L zmax z)
      buildLimGo L zmax len zs (if li ≠ acc.getLastD 0 then acc ++ [li] else acc)

/-- The `limIdxs` list before the final extension. -/
def buildLims (L : ℚ) (zmax len : ℕ) : List ℤ :=
  buildLimGo L zmax len (List.range (zmax+1)) [0]

/-- The final extension
`if (limIdxs.back() < size) limIdxs.back() = size` (overwrite of the last
element). -/
def extendLim (len : ℕ) (l : List ℤ) : List ℤ :=
  if l.getLastD 0 < (len:ℤ) then l.dropLast ++ [(len:ℤ)] else l

/-- The complete `limIdxs` for one elevation. -/
def limIdxsOf (L : ℚ) (zmax len : ℕ) : List ℤ := extendLim len (buildLims L zmax len)

/-- The collected `facSubs`.  In the source the push
`facSubs.push_back(z)` stands after the `if` without braces, so it runs on
every iteration: the list is exactly `0, 1, …, zmax`. -/
def hoofFacSubs (zmax : ℕ) : List ℕ := List.range (zmax+1)

/-- The inner `k` loop choosing `currFacSub` for a coarse range index `j`:
`if (j >= limIdxs[k] && j < limIdxs[k+1]) currFacSub = facSubs[k]`.
Out-of-range reads of `limIdxs` (possible when fewer than `zmax+1`
distinct limit indices were pushed) are modelled as reading 0; the
theorems about this function carry hypotheses that keep all reads in
bounds. -/
def facStep (lims : List ℤ) (facSubs : List ℕ) (j : ℕ) (cur : ℤ) : ℤ :=
  (List.range facSubs.length).foldl
    (fun acc k =>
      if lims.getD k 0 ≤ (j:ℤ) ∧ (j:ℤ) < lims.getD (k+1) 0
      then ((facSubs.getD k 0 : ℕ) : ℤ) else acc)
    cur

/-- The `j` loop over coarse range indices, carrying `currFacSub`
(initialized to -1 before the loop) across iterations; entry `j` of the
result is the `currFacSub` used for coarse range `j`. -/
def facSubGo (lims : List ℤ) (facSubs : List ℕ) : List ℕ → ℤ → List ℤ
  | [], _ => []
  | j :: js, cur =>
      let c := facStep lims facSubs j cur
      c :: facSubGo lims facSubs js c

/-- The per-`j` `currFacSub` values for `j = 0..nsr-1`. -/
def facSubSeq (lims : List ℤ) (facSubs : List ℕ) (nsr : ℕ) : List ℤ :=
  facSubGo lims facSubs (List.range nsr) (-1)

/-- `origStartRayBorders`: `k*rayF` for each coarse ray `k`
(`for (j = 0; j < naz; j += rayF)`). -/
def origStartRays (naz rayF : ℕ) : List ℕ :=
  (List.range ((naz + rayF - 1)/rayF)).map (fun k => k * rayF)

/-- `origEndRayBorders`: `rayF + k*rayF` for each coarse ray `k`. -/
def origEndRays (naz rayF : ℕ) : List ℕ :=
  (List.range ((naz + rayF - 1)/rayF)).map (fun k => rayF + k * rayF)

/-- All inputs of `_calculateBinBorders` for one elevation. -/
structure SobElev where
  naz : ℕ
  nr : ℕ
  rscale : ℚ
  binF : ℕ
  rayF : ℕ
  mas : ℚ

/-- Coarse dimensions set by `prepareMetadata` and used by the border
computation: `nsaz = naz / rayF`. -/
def SobElev.nsaz (s : SobElev) : ℕ := s.naz / s.rayF

/-- `nsr = nr / binF`. -/
def SobElev.nsr (s : SobElev) : ℕ := s.nr / s.binF

/-- The elevation's range borders. -/
def SobElev.rangeBorders (s : SobElev) : List ℕ := calcRangeBorders s.nr s.binF

/-- The elevation's `limIdxs`. -/
def SobElev.lims (s : SobElev) : List ℤ :=
  limIdxsOf (arcL s.naz s.binF s.rscale s.mas) (zmaxOf s.rayF) s.rangeBorders.length

/-- The elevation's `currFacSub` value for coarse range `j`. -/
def SobElev.facSub (s : SobElev) (j : ℕ) : ℤ :=
  (facSubSeq s.lims (hoofFacSubs (zmaxOf s.rayF)) s.nsr).getD j iNaN

/-- `startRayBorders[j][k] = origStartRayBorders[k] + currFacSub`, the
entry of the `(nsr, nsaz)` matrix for `j < nsr`, `k < nsaz`. -/
def SobElev.startRay (s : SobElev) (j k : ℕ) : ℤ :=
  ((origStartRays s.naz s.rayF).getD k 0 : ℤ) + s.facSub j

/-- `endRayBorders[j][k] = origEndRayBorders[k] - currFacSub`. -/
def SobElev.endRay (s : SobElev) (j k : ℕ) : ℤ :=
  ((origEndRays s.naz s.rayF).getD k 0 : ℤ) - s.facSub j

/-! ## Superober: VRAD aggregation (`HoofSuperober::superob`) -/

/-- The accumulation loop of one coarse VRAD cell.  `meas l m` is the
(rolled) source cube at ray `l`, bin `m`; a cell passes the guard
`v < 1000000.0` only when it is non-NaN.  The accumulators follow the
source literally: `nGood++; s = s + m; s2 = s2 + m*m;` — the sums are
over the loop index `m`, not over the measurement `v`. -/
def cellStats (meas : ℕ → ℕ → Option ℚ) (sr er sb eb : ℕ) : ℕ × ℚ × ℚ :=
  (List.range' sr (er - sr)).foldl
    (fun st l =>
      (List.range' sb (eb - sb)).foldl
        (fun st2 m =>
          match meas l m with
          | some v =>
              if v < 1000000 then (st2.1 + 1, st2.2.1 + (m:ℚ), st2.2.2 + (m:ℚ)*(m:ℚ))
              else st2
          | none => st2)
        st)
    (0, 0, 0)

/-- The standard-deviation gate `std < maxstd` of the source, without
square roots: with `nGood > 0` the source sets `avg = s/nGood`,
`std2 = (s2 - s*avg)/nGood` and `std = std2 > 0 ? sqrt(std2) : 0`, so
`std < maxstd` iff (`0 < maxstd` and, when `std2 > 0`,
`std2 < maxstd^2`).  With `nGood = 0`, `std` keeps its initial value
`maxstd + 1` and the gate is false. -/
def stdOk (nGood : ℕ) (s s2 maxstd : ℚ) : Bool :=
  if nGood = 0 then false
  else
    let avg := s / (nGood:ℚ)
    let std2 := (s2 - s*avg) / (nGood:ℚ)
    if 0 < std2 then decide (0 < maxstd) && decide (std2 < maxstd^2)
    else decide (0 < maxstd)

/-- One coarse VRAD cell: the emitted `(svrad.meas, svrad.quals)` pair.
`svrad.meas` is initialized to NaN (`none`) and `svrad.quals` to 0; the
cell writes `(avg, 1)` exactly when
`nGood > vradPercentage * (endRay-startRay)*(endBin-startBin)` and the
std gate passes. -/
def vradCell (meas : ℕ → ℕ → Option ℚ) (sr er sb eb : ℕ)
    (vradgood maxstd : ℚ) : Option ℚ × ℚ :=
  let st := cellStats meas sr er sb eb
  let avg := if st.1 = 0 then 0 else st.2.1 / (st.1:ℚ)
  if vradgood * (((er - sr) * (eb - sb) : ℕ) : ℚ) < (st.1:ℚ) ∧
      stdOk st.1 st.2.1 st.2.2 maxstd
  then (some avg, 1) else (none, 0)

/-! ## Check stages (`HoofSuperober::checkData`, `HoofDealiaser::checkData`) -/

/-- The distinct messages the two check stages can append. -/
inductive ChkMsg where
  | noData
  | allNaN
  | dbzAllNaN
  | vradAllNaN
  | noVradSets
  | vradNaN
  deriving DecidableEq

/-- The fields of a moment that the check stages read. -/
structure ChkMoment where
  nel : ℕ
  datasets : ℕ
  meas : Cube

/-- `HoofSuperober::checkData` as `(errors, warnings)`: both moments
empty is a fatal error (early return); both all-NaN is an error; exactly
one all-NaN is only a warning. -/
def superoberCheck (dbz vrad : ChkMoment) : List ChkMsg × List ChkMsg :=
  if dbz.nel = 0 ∧ vrad.nel = 0 then ([ChkMsg.noData], [])
  else
    let dn := isallnan dbz.meas
    let vn := isallnan vrad.meas
    ((if dn && vn then [ChkMsg.allNaN] else []),
     (if dn && !vn then [ChkMsg.dbzAllNaN] else []) ++
     (if !dn && vn then [ChkMsg.vradAllNaN] else []))

/-- `HoofDealiaser::checkData` as its error list: no VRAD datasets, and
all VRAD measurements NaN, each append an error (no early return). -/
def dealiaserCheck (vrad : ChkMoment) : List ChkMsg :=
  (if vrad.datasets = 0 then [ChkMsg.noVradSets] else []) ++
  (if isallnan vrad.meas then [ChkMsg.vradNaN] else [])

/-! ## Quantized writer (`HoofSuperober::write`, `HoofDealiaser::write`) -/

/-- `gain = (max - min)/254`, reset to 1 when `eqDbl(gain, 0)`. -/
def mkGain (mn mx : ℚ) : ℚ :=
  let g := (mx - mn)/254
  if |g - 0| ≤ dblEpsilon then 1 else g

/-- `offset = (254*min - max)/253`. -/
def mkOffset (mn mx : ℚ) : ℚ := (254*mn - mx)/253

/-- The byte written for a non-NaN cell:
`(unsigned char)((v - offset + 0.5*gain)/gain)`; the cast truncates
toward zero (for in-range `v` the argument is nonnegative and below 256,
so no wrap occurs). -/
def encodeByte (gain offset v : ℚ) : ℤ := cTrunc ((v - offset + (1/2)*gain)/gain)

/-- Decoding a byte back to a physical value: `v' = gain*b + offset`. -/
def decodeByte (gain offset : ℚ) (b : ℤ) : ℚ := gain*(b:ℚ) + offset

/-! ## Lemmas on the multiplier scan -/

lemma scanStep_of_none (vny w mv : ℚ) (st : Option ℚ × ℤ) (n : ℤ) (h : st.1 = none) :
    scanStep vny w mv st n = (some (|mv + 2*vny*(n:ℚ) - w|), n) := by
  unfold scanStep
  rw [h]

lemma scanStep_of_lt (vny w mv : ℚ) (st : Option ℚ × ℤ) (n : ℤ) (b0 : ℚ)
    (h : st.1 = some b0) (hlt : |mv + 2*vny*(n:ℚ) - w| < b0) :
    scanStep vny w mv st n = (some (|mv + 2*vny*(n:ℚ) - w|), n) := by
  unfold scanStep
  rw [h]
  simp only [if_pos hlt]

lemma scanStep_of_ge (vny w mv : ℚ) (st : Option ℚ × ℤ) (n : ℤ) (b0 : ℚ)
    (h : st.1 = some b0) (hge : ¬ |mv + 2*vny*(n:ℚ) - w| < b0) :
    scanStep vny w mv st n = st := by
  unfold scanStep
  rw [h]
  simp only [if_neg hge]

lemma scanStep_cases (vny w mv : ℚ) (st : Option ℚ × ℤ) (n : ℤ) :
    scanStep vny w mv st n = (some (|mv + 2*vny*(n:ℚ) - w|), n) ∨
      (scanStep vny w mv st n = st ∧
        ∃ b0, st.1 = some b0 ∧ b0 ≤ |mv + 2*vny*(n:ℚ) - w|) := by
  cases h : st.1 with
  | none => exact Or.inl (scanStep_of_none vny w mv st n h)
  | some b0 =>
      by_cases hlt : |mv + 2*vny*(n:ℚ) - w| < b0
      · exact Or.inl (scanStep_of_lt vny w mv st n b0 h hlt)
      · exact Or.inr ⟨scanStep_of_ge vny w mv st n b0 h hlt, b0, rfl, le_of_not_lt hlt⟩

lemma scan_mem (vny w mv : ℚ) (l : List ℤ) (st : Option ℚ × ℤ) :
    (l.foldl (scanStep vny w mv) st).2 = st.2 ∨ (l.foldl (scanStep vny w mv) st).2 ∈ l := by
  induction l generalizing st with
  | nil => left; rfl
  | cons a l ih =>
      simp only [List.foldl_cons]
      rcases ih (scanStep vny w mv st a) with h | h
      · rcases scanStep_cases vny w mv st a with h2 | ⟨h2, -⟩
        · right; rw [h, h2]; exact List.mem_cons_self a l
        · left; rw [h, h2]
      · right; exact List.mem_cons_of_mem a h

lemma scan_val (vny w mv : ℚ) (l : List ℤ) (st : Option ℚ × ℤ)
    (hst : ∀ b, st.1 = some b → |mv + 2*vny*(st.2:ℚ) - w| = b) :
    ∀ b, (l.foldl (scanStep vny w mv) st).1 = some b →
      |mv + 2*vny*(((l.foldl (scanStep vny w mv) st).2 : ℤ):ℚ) - w| = b := by
  induction l generalizing st with
  | nil => simpa using hst
  | cons a l ih =>
      simp only [List.foldl_cons]
      refine ih (scanStep vny w mv st a) ?_
      intro b hb
      rcases scanStep_cases vny w mv st a with h2 | ⟨h2, -⟩
      · rw [h2] at hb ⊢
        cases hb
        rfl
      · rw [h2] at hb ⊢
        exact hst b hb

lemma scan_some (vny w mv : ℚ) (l : List ℤ) (st : Option ℚ × ℤ)
    (h : l ≠ [] ∨ st.1.isSome) : ((l.foldl (scanStep vny w mv) st).1).isSome := by
  induction l generalizing st with
  | nil =>
      rcases h with h | h
      · exact absurd rfl h
      · simpa using h
  | cons a l ih =>
      simp only [List.foldl_cons]
      refine ih (scanStep vny w mv st a) (Or.inr ?_)
      rcases scanStep_cases vny w mv st a with h2 | ⟨h2, b0, hb0, -⟩
      · rw [h2]; rfl
      · rw [h2, hb0]; rfl

lemma scan_min (vny w mv : ℚ) (l : List ℤ) (st : Option ℚ × ℤ) :
    ∀ b, (l.foldl (scanStep vny w mv) st).1 = some b →
      (∀ n ∈ l, b ≤ |mv + 2*vny*(n:ℚ) - w|) ∧ (∀ b0, st.1 = some b0 → b ≤ b0) := by
  induction l generalizing st with
  | nil =>
      intro b hb
      refine ⟨fun n hn => absurd hn (List.not_mem_nil n), fun b0 h0 => ?_⟩
      simp only [List.foldl_nil] at hb
      rw [h0] at hb
      cases hb
      exact le_refl b
  | cons a l ih =>
      intro b hb
      simp only [List.foldl_cons] at hb
      obtain ⟨h1, h2⟩ := ih (scanStep vny w mv st a) b hb
      rcases scanStep_cases vny w mv st a with hc | ⟨hc, b0, hb0, hle⟩
      · have hba : b ≤ |mv + 2*vny*(a:ℚ) - w| := by
          refine h2 _ ?_
          rw [hc]
        refine ⟨fun n hn => ?_, fun b1 h1' => ?_⟩
        · rcases List.mem_cons.mp hn with rfl | hn'
          · exact hba
          · exact h1 n hn'
        · -- the step replaced the state, so either st.1 was none (vacuous) or the
          -- new minimum is strictly below b1
          cases h : st.1 with
          | none => rw [h] at h1'; cases h1'
          | some bI =>
              rw [h] at h1'
              cases h1'
              by_cases hlt : |mv + 2*vny*(a:ℚ) - w| < b1
              · exact le_of_lt (lt_of_le_of_lt hba hlt)
              · rw [scanStep_of_ge vny w mv st a b1 h hlt] at hc
                have : st.1 = some (|mv + 2*vny*(a:ℚ) - w|) := by rw [hc]
                rw [h] at this
                cases this
                exact hba
      · have hbb0 : b ≤ b0 := by
          refine h2 b0 ?_
          rw [hc, hb0]
        refine ⟨fun n hn => ?_, fun b1 h1' => ?_⟩
        · rcases List.mem_cons.mp hn with rfl | hn'
          · exact le_trans hbb0 hle
          · exact h1 n hn'
        · rw [hb0] at h1'
          cases h1'
          exact hbb0

lemma scan_stable (vny w mv : ℚ) (l : List ℤ) (st : Option ℚ × ℤ) (b0 : ℚ)
    (hst : st.1 = some b0) :
    ∀ b, (l.foldl (scanStep vny w mv) st).1 = some b → b = b0 →
      (l.foldl (scanStep vny w mv) st).2 = st.2 := by
  induction l generalizing st b0 with
  | nil => intro b _ _; rfl
  | cons a l ih =>
      intro b hb hbe
      simp only [List.foldl_cons] at hb ⊢
      by_cases hlt : |mv + 2*vny*(a:ℚ) - w| < b0
      · exfalso
        rw [scanStep_of_lt vny w mv st a b0 hst hlt] at hb
        obtain ⟨-, h2⟩ := scan_min vny w mv l _ b hb
        have := h2 _ rfl
        rw [hbe] at this
        exact absurd (lt_of_le_of_lt this hlt) (lt_irrefl b0)
      · rw [scanStep_of_ge vny w mv st a b0 hst hlt] at hb ⊢
        exact ih st b0 hst b hb hbe

lemma scan_tie (vny w mv : ℚ) (l : List ℤ) (hsort : l.Pairwise (· < ·)) (st : Option ℚ × ℤ)
    (hinv : st.1 = none ∨ ∀ n ∈ l, st.2 < n) :
    ∀ b, (l.foldl (scanStep vny w mv) st).1 = some b →
      ∀ n ∈ l, |mv + 2*vny*(n:ℚ) - w| = b → (l.foldl (scanStep vny w mv) st).2 ≤ n := by
  induction l generalizing st with
  | nil => intro b _ n hn; exact absurd hn (List.not_mem_nil n)
  | cons a l ih =>
      intro b hb n hn hfn
      simp only [List.foldl_cons] at hb ⊢
      have hsort' : l.Pairwise (· < ·) := (List.pairwise_cons.mp hsort).2
      have halt : ∀ x ∈ l, a < x := (List.pairwise_cons.mp hsort).1
      have hinv' : (scanStep vny w mv st a).1 = none ∨
          ∀ x ∈ l, (scanStep vny w mv st a).2 < x := by
        right
        intro x hx
        rcases scanStep_cases vny w mv st a with h2 | ⟨h2, b0, hb0, -⟩
        · rw [h2]
          exact halt x hx
        · rw [h2]
          rcases hinv with h3 | h3
          · rw [h3] at hb0; cases hb0
          · exact h3 x (List.mem_cons_of_mem a hx)
      rcases List.mem_cons.mp hn with rfl | hn'
      · -- n = a : the head attains the final minimum b
        rcases scanStep_cases vny w mv st n with hc | ⟨hc, b0, hb0, hle⟩
        · -- the step stored (f a, a); since f a = b the fold never improves on it
          rw [hc] at hb ⊢
          have h2a : (l.foldl (scanStep vny w mv) ((some (|mv + 2*vny*(n:ℚ) - w|), n))).2 = n :=
            scan_stable vny w mv l _ _ rfl b hb hfn.symm
          rw [h2a]
        · -- the step kept st with st.1 = some b0 and b0 ≤ f a = b; also b ≤ b0,
          -- hence b = b0 and the fold keeps st.2, which is below a
          rw [hc] at hb ⊢
          obtain ⟨-, h2⟩ := scan_min vny w mv l st b hb
          have hbb0 : b ≤ b0 := h2 b0 hb0
          have hb0b : b0 ≤ b := by rw [← hfn]; exact hle
          have h2a : (l.foldl (scanStep vny w mv) st).2 = st.2 :=
            scan_stable vny w mv l st b0 hb0 b hb (le_antisymm hbb0 hb0b)
          rw [h2a]
          rcases hinv with h3 | h3
          · rw [h3] at hb0; cases hb0
          · exact le_of_lt (h3 n (List.mem_cons_self n l))
      · exact ih hsort' _ hinv' b hb n hn' hfn

lemma nyList_mem (N n : ℤ) (hN : 0 ≤ N) : n ∈ nyList N ↔ -N ≤ n ∧ n ≤ N := by
  have hcast : ((2*N+1).toNat : ℤ) = 2*N+1 := Int.toNat_of_nonneg (by omega)
  unfold nyList
  constructor
  · intro h
    obtain ⟨t, ht, hte⟩ := List.mem_map.mp h
    rw [List.mem_range] at ht
    have ht' : (t:ℤ) < 2*N+1 := by
      have h2 : (t:ℤ) < ((2*N+1).toNat : ℤ) := by exact_mod_cast ht
      rwa [hcast] at h2
    have h0 : (0:ℤ) ≤ (t:ℤ) := by exact_mod_cast Nat.zero_le t
    rw [← hte]
    constructor <;> omega
  · intro h
    refine List.mem_map.mpr ⟨(n+N).toNat, ?_, ?_⟩
    · rw [List.mem_range]
      have hc1 : ((n+N).toNat : ℤ) = n + N := Int.toNat_of_nonneg (by omega)
      have h3 : ((n+N).toNat : ℤ) < ((2*N+1).toNat : ℤ) := by
        rw [hc1, hcast]
        omega
      exact_mod_cast h3
    · have hc1 : ((n+N).toNat : ℤ) = n + N := Int.toNat_of_nonneg (by omega)
      rw [hc1]
      omega

lemma nyList_sorted (N : ℤ) : (nyList N).Pairwise (· < ·) := by
  have H : ∀ a b : ℕ, a < b → ((a:ℤ) - N) < ((b:ℤ) - N) := by
    intro a b hab
    have h2 : (a:ℤ) < (b:ℤ) := by exact_mod_cast hab
    omega
  exact List.Pairwise.map (fun t : ℕ => (t:ℤ) - N) H (List.pairwise_lt_range _)

/-- The stored multiplier is the initial `iNaN = 0` or a scanned candidate, so
its absolute value is at most `N`. -/
lemma nsBin_abs_le (N : ℤ) (hN : 0 ≤ N) (vny : ℚ) (wm m : Option ℚ) :
    |nsBin N vny wm m| ≤ N := by
  cases wm with
  | none =>
      have h : nsBin N vny none m = 0 := by cases m <;> rfl
      rw [h]
      simpa using hN
  | some w =>
      cases m with
      | none =>
          have h : nsBin N vny (some w) none = 0 := rfl
          rw [h]
          simpa using hN
      | some mv =>
          have h : nsBin N vny (some w) (some mv) =
              ((nyList N).foldl (scanStep vny w mv) (none, iNaN)).2 := rfl
          rw [h]
          rcases scan_mem vny w mv (nyList N) (none, iNaN) with h2 | h2
          · rw [h2]
            simpa [iNaN] using hN
          · obtain ⟨h3, h4⟩ := (nyList_mem N _ hN).mp h2
            rw [abs_le]
            exact ⟨by omega, h4⟩

/-- Claim C3: every defined dealiased bin equals the measurement shifted by an
even Nyquist multiple `2*k*vny[e]` with `|k| ≤ (int)(maxWind/vnyMin)`, where
`vnyMin` is the running minimum of the per-elevation Nyquist velocities. -/
theorem C3_dealias_nyquist (vnys : List ℚ) (maxWind vm : ℚ)
    (hmin : minVny vnys = some vm) (hvm : 0 < vm) (hmw : 0 ≤ maxWind)
    (e : ℕ) (he : e < vnys.length) (wm : Option ℚ) (mv dv : ℚ) :
    dealiasBin (nyMult maxWind vm) (vnys.get ⟨e, he⟩) wm (some mv) (some dv)
      = some (mv + 2*((nsBin (nyMult maxWind vm) (vnys.get ⟨e, he⟩) wm (some mv) : ℤ):ℚ)
          * (vnys.get ⟨e, he⟩)) ∧
    |nsBin (nyMult maxWind vm) (vnys.get ⟨e, he⟩) wm (some mv)| ≤ nyMult maxWind vm := by
  have hN : 0 ≤ nyMult maxWind vm := by
    unfold nyMult cTrunc
    have h0 : 0 ≤ maxWind / vm := div_nonneg hmw hvm.le
    rw [if_pos h0]
    exact Int.floor_nonneg.mpr h0
  exact ⟨rfl, nsBin_abs_le _ hN _ _ _⟩

/-- Witness for C3 at a concrete input. -/
theorem C3_witness :
    minVny [(10:ℚ)] = some 10 ∧
    (dealiasBin (nyMult 40 10) (([(10:ℚ)]).get ⟨0, by norm_num⟩) (some 3) (some 1) (some 7)
      = some (1 + 2*((nsBin (nyMult 40 10) (([(10:ℚ)]).get ⟨0, by norm_num⟩) (some 3) (some 1) : ℤ):ℚ)
          * (([(10:ℚ)]).get ⟨0, by norm_num⟩)) ∧
    |nsBin (nyMult 40 10) (([(10:ℚ)]).get ⟨0, by norm_num⟩) (some 3) (some 1)| ≤ nyMult 40 10) :=
  ⟨rfl, C3_dealias_nyquist [(10:ℚ)] 40 10 rfl (by norm_num) (by norm_num) 0 (by norm_num)
    (some 3) 1 7⟩

/-- Claim C1 (code evaluation at the failing input): with the S3 settings
(`maxWind = 40`, `vny = 10`, all wind models NaN because every sector is below
`minGoodPoints`), a bin with measurement 1 and defined `D` is NOT set to NaN:
`isnan` applied to the `int` multiplier is always false and the `iNaN` sentinel
equals 0, so the bin passes through with `k = 0` and `dvrads = meas`. -/
theorem C1_missing_model_passthrough :
    dealiasBin (nyMult 40 10) 10 none (some 1) (some 5) = some 1 := by
  norm_num [dealiasBin, nsBin, iNaN]

/-- Claim C4 (amended): for a bin with defined model and measurement, the stored
multiplier minimizes the distance `|meas + 2*k*vny - wModel|` over `[-N, N]`; on
equal distances the ascending scan with strict improvement keeps the FIRST, i.e.
least (most negative), minimizer — not the one of smallest absolute value. -/
theorem C4_multiplier_choice (N : ℤ) (hN : 0 ≤ N) (vny w mv : ℚ) :
    (∀ n : ℤ, -N ≤ n → n ≤ N →
      |mv + 2*vny*((nsBin N vny (some w) (some mv) : ℤ):ℚ) - w| ≤ |mv + 2*vny*(n:ℚ) - w|) ∧
    (∀ n : ℤ, -N ≤ n → n ≤ N →
      |mv + 2*vny*(n:ℚ) - w| = |mv + 2*vny*((nsBin N vny (some w) (some mv) : ℤ):ℚ) - w| →
      nsBin N vny (some w) (some mv) ≤ n) := by
  have hdef : nsBin N vny (some w) (some mv) =
      ((nyList N).foldl (scanStep vny w mv) (none, iNaN)).2 := rfl
  have hne : nyList N ≠ [] := by
    have h0 : (0:ℤ) ∈ nyList N := (nyList_mem N 0 hN).mpr ⟨by omega, hN⟩
    intro h
    rw [h] at h0
    exact absurd h0 (List.not_mem_nil 0)
  have hsome := scan_some vny w mv (nyList N) (none, iNaN) (Or.inl hne)
  obtain ⟨b, hb⟩ := Option.isSome_iff_exists.mp hsome
  have hval := scan_val vny w mv (nyList N) (none, iNaN) (fun b h => by cases h) b hb
  have hmin := scan_min vny w mv (nyList N) (none, iNaN) b hb
  constructor
  · intro n h1 h2
    have hn : n ∈ nyList N := (nyList_mem N n hN).mpr ⟨h1, h2⟩
    rw [hdef, hval]
    exact hmin.1 n hn
  · intro n h1 h2 heq
    have hn : n ∈ nyList N := (nyList_mem N n hN).mpr ⟨h1, h2⟩
    rw [hdef]
    refine scan_tie vny w mv (nyList N) (nyList_sorted N) (none, iNaN) (Or.inl rfl) b hb n hn ?_
    rw [heq, hdef] at *
    exact hval

/-- Witness for C4 at a concrete input. -/
theorem C4_witness :
    ((0:ℤ) ≤ 1) ∧
    |(1:ℚ) + 2*10*((nsBin 1 10 (some 4) (some 1) : ℤ):ℚ) - 4| ≤ |(1:ℚ) + 2*10*((0:ℤ):ℚ) - 4| :=
  ⟨by norm_num, (C4_multiplier_choice 1 (by norm_num) 10 4 1).1 0 (by norm_num) (by norm_num)⟩

/-- Claim C4 counterexample: with `vny = 10`, model `-10`, measurement `0` and
`N = 2`, the multipliers `-1` and `0` tie at distance 10 (all other candidates
are strictly worse), and the code stores `k = -1`, whose absolute value exceeds
that of the other minimizer `0` — refuting the smaller-`|k|` tie-break. -/
theorem C4_counterexample :
    nsBin 2 10 (some (-10)) (some 0) = -1 ∧
    |(0:ℚ) + 2*10*((-1:ℤ):ℚ) - (-10)| = 10 ∧
    |(0:ℚ) + 2*10*((0:ℤ):ℚ) - (-10)| = 10 ∧
    |(0:ℚ) + 2*10*((-2:ℤ):ℚ) - (-10)| = 30 ∧
    |(0:ℚ) + 2*10*((1:ℤ):ℚ) - (-10)| = 30 ∧
    |(0:ℚ) + 2*10*((2:ℤ):ℚ) - (-10)| = 50 ∧
    ¬ ((-1:ℤ).natAbs ≤ (0:ℤ).natAbs) := by
  have h : nyList 2 = [-2,-1,0,1,2] := rfl
  refine ⟨?_, by norm_num, by norm_num, by norm_num, by norm_num, by norm_num, by decide⟩
  norm_num [nsBin, vnyScan, h, scanStep, iNaN]

/-! ## Superobed metadata and range borders -/

/-- Claim C5: the superobed per-elevation metadata satisfies
`naz' = naz / rayF`, `nr' = nr / binF`, `rscale' = binF * rscale`,
`rstart' = rstart` (the same map runs for DBZ and for VRAD). -/
theorem C5_superob_dims (binF rayF : ℕ) (m : MomentMeta) (e : ℕ)
    (h1 : e < m.naz.length) (h2 : e < m.nr.length) (h3 : e < m.rscales.length) :
    (prepareMeta binF rayF m).naz.getD e 0 = m.naz.getD e 0 / rayF ∧
    (prepareMeta binF rayF m).nr.getD e 0 = m.nr.getD e 0 / binF ∧
    (prepareMeta binF rayF m).rscales.getD e 0 = (binF:ℚ) * m.rscales.getD e 0 ∧
    (prepareMeta binF rayF m).rstarts.getD e 0 = m.rstarts.getD e 0 := by
  refine ⟨?_, ?_, ?_, rfl⟩
  · rw [List.getD_eq_getElem _ _ (by simpa [prepareMeta] using h1),
      List.getD_eq_getElem _ _ h1]
    simp [prepareMeta]
  · rw [List.getD_eq_getElem _ _ (by simpa [prepareMeta] using h2),
      List.getD_eq_getElem _ _ h2]
    simp [prepareMeta]
  · rw [List.getD_eq_getElem _ _ (by simpa [prepareMeta] using h3),
      List.getD_eq_getElem _ _ h3]
    simp [prepareMeta]

/-- Witness for C5 at the S4 scenario: naz = [16], nr = [20], binF = 4,
rayF = 3, where the expected coarse dimensions are 16/3 = 5 and 20/4 = 5. -/
theorem C5_witness :
    ((16:ℕ)/3 = 5 ∧ (20:ℕ)/4 = 5) ∧
    ((prepareMeta 4 3 ⟨[16], [20], [30], [0]⟩).naz.getD 0 0 = 16 / 3 ∧
     (prepareMeta 4 3 ⟨[16], [20], [30], [0]⟩).nr.getD 0 0 = 20 / 4 ∧
     (prepareMeta 4 3 ⟨[16], [20], [30], [0]⟩).rscales.getD 0 0 = (4:ℚ) * 30 ∧
     (prepareMeta 4 3 ⟨[16], [20], [30], [0]⟩).rstarts.getD 0 0 = 0) :=
  ⟨by norm_num, C5_superob_dims 4 3 ⟨[16], [20], [30], [0]⟩ 0 (by norm_num) (by norm_num)
    (by norm_num)⟩

/-- Closed form of the range borders: with `0 < binF` the push/pop pair leaves
exactly the multiples `0, binF, …, (nr/binF)*binF`. -/
lemma calcRangeBorders_eq (nr binF : ℕ) (h : 0 < binF) :
    calcRangeBorders nr binF = (List.range (nr/binF + 1)).map (fun j => j * binF) := by
  have hqr : binF * (nr / binF) + nr % binF = nr := Nat.div_add_mod nr binF
  have hrlt : nr % binF < binF := Nat.mod_lt nr h
  rcases Nat.eq_zero_or_pos (nr % binF) with hs | hs
  · -- binF divides nr: the last pushed border is nr itself and is kept
    have hq : (nr + binF - 1)/binF = nr/binF := by
      have he : nr + binF - 1 = binF * (nr/binF) + (binF - 1) := by omega
      rw [he, Nat.mul_add_div h,
        Nat.div_eq_of_lt (show binF - 1 < binF by omega), Nat.add_zero]
    have hlast : ((List.range (nr/binF + 1)).map (fun j => j * binF)).getLastD 0
        = (nr/binF) * binF := by
      rw [List.range_succ, List.map_append]
      simp
    have hval : (nr/binF) * binF = nr := by
      rw [Nat.mul_comm]
      omega
    simp only [calcRangeBorders, rawBorders]
    rw [hq, hlast, hval]
    simp
  · -- binF does not divide nr: one border beyond nr is pushed and popped again
    have hq : (nr + binF - 1)/binF = nr/binF + 1 := by
      have he : nr + binF - 1 = binF * (nr/binF + 1) + (nr % binF - 1) := by
        have he2 : binF * (nr/binF + 1) = binF * (nr/binF) + binF := by ring
        omega
      rw [he, Nat.mul_add_div h,
        Nat.div_eq_of_lt (show nr % binF - 1 < binF by omega), Nat.add_zero]
    have hlast : ((List.range (nr/binF + 1 + 1)).map (fun j => j * binF)).getLastD 0
        = (nr/binF + 1) * binF := by
      rw [List.range_succ, List.map_append]
      simp
    have hgt : nr < (nr/binF + 1) * binF := by
      have he2 : (nr/binF + 1) * binF = binF * (nr/binF) + binF := by
        ring
      omega
    simp only [calcRangeBorders, rawBorders]
    rw [hq, hlast, if_pos hgt]
    rw [List.range_succ, List.map_append]
    exact List.dropLast_concat ..

/-- Claim C6 (amended): the range-border list is the list of multiples of
`binF` up to `(nr/binF)*binF`; it has `nr/binF + 1` entries and its final
entry is `binF * (nr/binF)`, which equals `nr` exactly when `binF` divides
`nr`. -/
theorem C6_range_borders (nr binF : ℕ) (h : 0 < binF) :
    calcRangeBorders nr binF = (List.range (nr/binF + 1)).map (fun j => j * binF) ∧
    (calcRangeBorders nr binF).length = nr/binF + 1 ∧
    (calcRangeBorders nr binF).getLastD 0 = binF * (nr/binF) ∧
    ((calcRangeBorders nr binF).getLastD 0 = nr ↔ binF ∣ nr) := by
  have he := calcRangeBorders_eq nr binF h
  have hlast : (calcRangeBorders nr binF).getLastD 0 = (nr/binF) * binF := by
    rw [he, List.range_succ, List.map_append]
    simp
  refine ⟨he, ?_, ?_, ?_⟩
  · rw [he]
    simp
  · rw [hlast, Nat.mul_comm]
  · rw [hlast]
    constructor
    · intro h2
      refine ⟨nr/binF, ?_⟩
      rw [Nat.mul_comm]
      exact h2.symm
    · intro h2
      exact Nat.div_mul_cancel h2

/-- Witness for C6 at nr = 20, binF = 4 (the S4 elevation). -/
theorem C6_witness :
    (0 < 4) ∧
    (calcRangeBorders 20 4 = (List.range (20/4 + 1)).map (fun j => j * 4) ∧
     (calcRangeBorders 20 4).length = 20/4 + 1 ∧
     (calcRangeBorders 20 4).getLastD 0 = 4 * (20/4) ∧
     ((calcRangeBorders 20 4).getLastD 0 = 20 ↔ 4 ∣ 20)) :=
  ⟨by norm_num, C6_range_borders 20 4 (by norm_num)⟩

/-- Claim C6 counterexample: with nr = 21 and binFactor = 4 the computed
borders are [0, 4, 8, 12, 16, 20]; the final border is 20, not nr = 21, so
the trailing partial bin is dropped rather than closed at nr. -/
theorem C6_counterexample :
    calcRangeBorders 21 4 = [0, 4, 8, 12, 16, 20] ∧
    ¬ ((calcRangeBorders 21 4).getLastD 0 = 21) := by decide

/-! ## VRAD aggregation, checks, quantization, height sectors -/

/-- Claim C2 (code evaluation at the failing input): one coarse VRAD cell of
9 bins (one ray, bin indices 0..8), every measurement equal to 5, with
`vradPercentage = 1/2` and `vradMaxStd = 3`.  The source accumulates the loop
index `m` instead of the measurement value (`s = s + m; s2 = s2 + m*m`), so
it computes avg = (0+1+…+8)/9 = 4 with std² = 60/9 and emits 4 — not the
measurement average 5 (whose std is 0) that the claimed statistics require. -/
theorem C2_vrad_index_bug :
    vradCell (fun _ m => if m < 9 then some (5:ℚ) else none) 0 1 0 9 (1/2) 3
      = (some 4, 1) := by
  norm_num [vradCell, cellStats, stdOk, List.range']

/-- Claim C8: the 8-bit quantization round trip.  For any cell value between
the field minimum and maximum, decoding the encoded byte recovers the value
to within one gain (in fact within gain/2). -/
theorem C8_quant_roundtrip (mn mx v : ℚ) (h1 : mn ≤ v) (h2 : v ≤ mx) :
    |v - decodeByte (mkGain mn mx) (mkOffset mn mx)
        (encodeByte (mkGain mn mx) (mkOffset mn mx) v)| ≤ mkGain mn mx := by
  set g := mkGain mn mx with hg
  set o := mkOffset mn mx with ho
  have hgpos : 0 < g := by
    rw [hg]
    show (0:ℚ) < if |(mx - mn)/254 - 0| ≤ dblEpsilon then 1 else (mx - mn)/254
    split
    · norm_num
    · next hne =>
        have hnn : 0 ≤ (mx - mn)/254 := div_nonneg (by linarith) (by norm_num)
        rw [sub_zero, abs_of_nonneg hnn] at hne
        have heps : (0:ℚ) < dblEpsilon := by norm_num [dblEpsilon]
        have hlt := lt_of_not_le hne
        linarith
  have hvo : 0 ≤ v - o := by
    rw [ho]
    unfold mkOffset
    have hco : (254*mn - mx)/253 ≤ mn := by
      rw [div_le_iff (by norm_num : (0:ℚ) < 253)]
      linarith
    linarith
  have ht0 : 0 ≤ (v - o + (1/2)*g)/g := div_nonneg (by linarith) hgpos.le
  have henc : encodeByte g o v = ⌊(v - o + (1/2)*g)/g⌋ := by
    unfold encodeByte cTrunc
    rw [if_pos ht0]
  have hfl : ((⌊(v - o + (1/2)*g)/g⌋ : ℤ) : ℚ) ≤ (v - o + (1/2)*g)/g := Int.floor_le _
  have hfl2 : (v - o + (1/2)*g)/g - 1 < ((⌊(v - o + (1/2)*g)/g⌋ : ℤ) : ℚ) :=
    Int.sub_one_lt_floor _
  have hmul1 : g * ((⌊(v - o + (1/2)*g)/g⌋ : ℤ) : ℚ) ≤ g * ((v - o + (1/2)*g)/g) :=
    mul_le_mul_of_nonneg_left hfl hgpos.le
  have hmul2 : g * ((v - o + (1/2)*g)/g - 1) < g * ((⌊(v - o + (1/2)*g)/g⌋ : ℤ) : ℚ) :=
    mul_lt_mul_of_pos_left hfl2 hgpos
  have hgt : g * ((v - o + (1/2)*g)/g) = v - o + (1/2)*g := by
    field_simp
    ring
  have hexp : g * ((v - o + (1/2)*g)/g - 1) = g * ((v - o + (1/2)*g)/g) - g := by
    ring
  unfold decodeByte
  rw [henc, abs_le]
  constructor <;> linarith

/-- Witness for C8 at a concrete field: min 0, max 254, value 100. -/
theorem C8_witness :
    ((0:ℚ) ≤ 100 ∧ (100:ℚ) ≤ 254) ∧
    |(100:ℚ) - decodeByte (mkGain 0 254) (mkOffset 0 254)
        (encodeByte (mkGain 0 254) (mkOffset 0 254) 100)| ≤ mkGain 0 254 :=
  ⟨⟨by norm_num, by norm_num⟩, C8_quant_roundtrip 0 254 100 (by norm_num) (by norm_num)⟩

/-- Claim C9: the superober appends an error iff both moments are empty or
both measurement cubes are all-NaN; exactly one all-NaN moment yields only a
warning; the dealiaser errors iff VRAD has no datasets or is all-NaN.  The
hypotheses record the data-model fact that an empty moment carries an empty
(hence vacuously all-NaN) cube. -/
theorem C9_check_stages (dbz vrad : ChkMoment)
    (hd : dbz.nel = 0 → isallnan dbz.meas = true)
    (hv : vrad.nel = 0 → isallnan vrad.meas = true) :
    ((superoberCheck dbz vrad).1 ≠ [] ↔
      ((dbz.nel = 0 ∧ vrad.nel = 0) ∨
        (isallnan dbz.meas = true ∧ isallnan vrad.meas = true))) ∧
    ((isallnan dbz.meas ≠ isallnan vrad.meas) →
      ((superoberCheck dbz vrad).1 = [] ∧ (superoberCheck dbz vrad).2 ≠ [])) ∧
    (dealiaserCheck vrad ≠ [] ↔
      (vrad.datasets = 0 ∨ isallnan vrad.meas = true)) := by
  refine ⟨?_, ?_, ?_⟩
  · unfold superoberCheck
    by_cases h0 : dbz.nel = 0 ∧ vrad.nel = 0
    · rw [if_pos h0]
      simp [h0]
    · rw [if_neg h0]
      cases hdn : isallnan dbz.meas <;> cases hvn : isallnan vrad.meas <;>
        simp [hdn, hvn, h0]
  · intro hne
    unfold superoberCheck
    have h0 : ¬ (dbz.nel = 0 ∧ vrad.nel = 0) := by
      intro h0
      exact hne (by rw [hd h0.1, hv h0.2])
    rw [if_neg h0]
    cases hdn : isallnan dbz.meas <;> cases hvn : isallnan vrad.meas <;> simp_all
  · unfold dealiaserCheck
    by_cases hds : vrad.datasets = 0 <;> cases hvn : isallnan vrad.meas <;>
      simp [hds, hvn]

/-- Witness for C9: DBZ with data, VRAD all-NaN with one dataset — the
superober only warns, the dealiaser errors. -/
theorem C9_witness :
    ((⟨1, 1, [[[some 1]]]⟩ : ChkMoment).nel = 0 →
      isallnan (⟨1, 1, [[[some 1]]]⟩ : ChkMoment).meas = true) ∧
    (((superoberCheck ⟨1, 1, [[[some 1]]]⟩ ⟨1, 1, [[[none]]]⟩).1 ≠ [] ↔
      (((⟨1, 1, [[[some 1]]]⟩ : ChkMoment).nel = 0 ∧
        (⟨1, 1, [[[none]]]⟩ : ChkMoment).nel = 0) ∨
        (isallnan (⟨1, 1, [[[some 1]]]⟩ : ChkMoment).meas = true ∧
          isallnan (⟨1, 1, [[[none]]]⟩ : ChkMoment).meas = true))) ∧
    ((isallnan (⟨1, 1, [[[some 1]]]⟩ : ChkMoment).meas ≠
        isallnan (⟨1, 1, [[[none]]]⟩ : ChkMoment).meas) →
      ((superoberCheck ⟨1, 1, [[[some 1]]]⟩ ⟨1, 1, [[[none]]]⟩).1 = [] ∧
        (superoberCheck ⟨1, 1, [[[some 1]]]⟩ ⟨1, 1, [[[none]]]⟩).2 ≠ [])) ∧
    (dealiaserCheck ⟨1, 1, [[[none]]]⟩ ≠ [] ↔
      ((⟨1, 1, [[[none]]]⟩ : ChkMoment).datasets = 0 ∨
        isallnan (⟨1, 1, [[[none]]]⟩ : ChkMoment).meas = true))) :=
  ⟨by decide,
    C9_check_stages ⟨1, 1, [[[some 1]]]⟩ ⟨1, 1, [[[none]]]⟩ (by decide) (by decide)⟩

/-- Claim C10: for an eligible bin (height, measurement and D defined, height
below the ceiling) whose height is at least the site height, and a positive
sector size, the computed sector index is within `[0, nl)` where
`nl = (int)((zceil - zstart)/dz) + 1` — so the write into `zIdxs` is in
bounds. -/
theorem C10_sector_bounds (zstart dz zdatamax zMax : ℚ) (z m d : Option ℚ) (zv : ℚ)
    (hdz : 0 < dz) (hz : z = some zv) (hge : zstart ≤ zv)
    (helig : eligibleBin z m d (zceilOf zdatamax zMax)) :
    0 ≤ heightSectorIdx zstart dz zv ∧
    heightSectorIdx zstart dz zv < heightSectorCount (zceilOf zdatamax zMax) zstart dz := by
  obtain ⟨zv', hzv', -, -, hlt⟩ := helig
  rw [hz] at hzv'
  injection hzv' with hzz
  subst hzz
  set c := zceilOf zdatamax zMax with hc
  have ha : 0 ≤ (zv - zstart)/dz := div_nonneg (by linarith) hdz.le
  have hidx : heightSectorIdx zstart dz zv = ⌊(zv - zstart)/dz⌋ := by
    unfold heightSectorIdx cTrunc
    rw [if_pos ha]
  have hblt : (zv - zstart)/dz < (c - zstart)/dz := by
    rw [div_lt_div_iff hdz hdz]
    have hzc : zv - zstart < c - zstart := by linarith
    nlinarith
  have hb0 : 0 ≤ (c - zstart)/dz := le_of_lt (lt_of_le_of_lt ha hblt)
  have hcount : heightSectorCount c zstart dz = ⌊(c - zstart)/dz⌋ + 1 := by
    unfold heightSectorCount cTrunc
    rw [if_pos hb0]
  constructor
  · rw [hidx]
    exact Int.floor_nonneg.mpr ha
  · rw [hidx, hcount]
    have := Int.floor_le_floor (le_of_lt hblt)
    omega

/-- Witness for C10: site height 0, sector size 100, data max 1000, ceiling
setting 10000, a bin at height 50. -/
theorem C10_witness :
    ((0:ℚ) < 100 ∧ (some (50:ℚ)) = some 50 ∧ (0:ℚ) ≤ 50) ∧
    (0 ≤ heightSectorIdx 0 100 50 ∧
      heightSectorIdx 0 100 50 < heightSectorCount (zceilOf 1000 10000) 0 100) :=
  ⟨⟨by norm_num, rfl, by norm_num⟩,
    C10_sector_bounds 0 100 1000 10000 (some 50) (some 1) (some 2) 50
      (by norm_num) rfl (by norm_num)
      ⟨50, rfl, rfl, rfl, by norm_num [zceilOf]⟩⟩

/-! ## Adaptive ray bins (claim C7) -/

lemma foldl_skip_all (f : ℤ → ℕ → ℤ) (l : List ℕ) (init : ℤ)
    (h : ∀ acc k, k ∈ l → f acc k = acc) : l.foldl f init = init := by
  induction l generalizing init with
  | nil => rfl
  | cons a l ih =>
      rw [List.foldl_cons, h init a (List.mem_cons_self a l)]
      exact ih init (fun acc k hk => h acc k (List.mem_cons_of_mem a hk))

/-- A fold of an if-update over `range n` with exactly one firing index
returns the fired value, independently of the initial accumulator. -/
lemma foldl_range_pick (f : ℤ → ℕ → ℤ) (t : ℕ) (w : ℤ) :
    ∀ n, t < n → (∀ acc, f acc t = w) →
      (∀ acc k, k < n → k ≠ t → f acc k = acc) →
      ∀ init, (List.range n).foldl f init = w := by
  intro n
  induction n with
  | zero => intro ht; omega
  | succ n ih =>
      intro ht hat hskip init
      rw [List.range_succ, List.foldl_append, List.foldl_cons, List.foldl_nil]
      rcases Nat.lt_succ_iff_lt_or_eq.mp ht with hlt | heq
      · rw [hskip _ n (Nat.lt_succ_self n) (by omega)]
        exact ih hlt hat (fun acc k hk hne => hskip acc k (by omega) hne) init
      · subst heq
        rw [foldl_skip_all f (List.range t) init ?_]
        · exact hat init
        · intro acc k hk
          rw [List.mem_range] at hk
          exact hskip acc k (by omega) (by omega)

lemma getD_range (n t : ℕ) (h : t < n) : (List.range n).getD t 0 = t := by
  rw [List.getD_eq_getElem _ _ (by simpa using h)]
  simp

lemma hoofFacSubs_length (z : ℕ) : (hoofFacSubs z).length = z + 1 := by
  simp [hoofFacSubs]

lemma hoofFacSubs_getD (z t : ℕ) (h : t ≤ z) : (hoofFacSubs z).getD t 0 = t :=
  getD_range (z+1) t (by omega)

lemma origStartRays_getD (naz rayF k : ℕ) (h : k < (naz + rayF - 1)/rayF) :
    (origStartRays naz rayF).getD k 0 = k * rayF := by
  unfold origStartRays
  rw [List.getD_eq_getElem _ _ (by simpa using h)]
  simp

lemma origEndRays_getD (naz rayF k : ℕ) (h : k < (naz + rayF - 1)/rayF) :
    (origEndRays naz rayF).getD k 0 = rayF + k * rayF := by
  unfold origEndRays
  rw [List.getD_eq_getElem _ _ (by simpa using h)]
  simp

/-- Entries of a strictly increasing list are monotone in the index. -/
lemma getD_mono_of_chain (l : List ℤ) (hch : List.Chain' (· < ·) l) :
    ∀ a b : ℕ, a ≤ b → b < l.length → l.getD a 0 ≤ l.getD b 0 := by
  have hstep : ∀ i, i + 1 < l.length → l.getD i 0 < l.getD (i+1) 0 := by
    intro i hi
    have h2 := List.chain'_iff_get.mp hch i (by omega)
    rw [List.getD_eq_getElem _ _ (by omega), List.getD_eq_getElem _ _ hi]
    simpa [List.get_eq_getElem] using h2
  intro a b hab
  induction b, hab using Nat.le_induction with
  | base => intro _; exact le_refl _
  | succ b hb ih =>
      intro hblen
      exact le_trans (ih (by omega)) (le_of_lt (hstep b hblen))

/-- Discrete intermediate value: a value between `g 0` and `g mm` lies in some
step interval. -/
lemma exists_tier (g : ℕ → ℤ) :
    ∀ (mm : ℕ) (j : ℤ), g 0 ≤ j → j < g mm → ∃ t, t < mm ∧ g t ≤ j ∧ j < g (t+1) := by
  intro mm
  induction mm with
  | zero => intro j h0 hm; exact absurd (lt_of_le_of_lt h0 hm) (lt_irrefl _)
  | succ m ih =>
      intro j h0 hm
      by_cases hgm : g m ≤ j
      · exact ⟨m, Nat.lt_succ_self m, hgm, hm⟩
      · obtain ⟨t, ht, h1, h2⟩ := ih j h0 (lt_of_not_le hgm)
        exact ⟨t, by omega, h1, h2⟩

lemma facSubGo_const (lims : List ℤ) (facSubs : List ℕ) (F : ℕ → ℤ) :
    ∀ (js : List ℕ), (∀ j ∈ js, ∀ cur, facStep lims facSubs j cur = F j) →
      ∀ cur, facSubGo lims facSubs js cur = js.map F := by
  intro js
  induction js with
  | nil => intro _ cur; rfl
  | cons a l ih =>
      intro h cur
      show (facStep lims facSubs a cur :: facSubGo lims facSubs l (facStep lims facSubs a cur))
        = F a :: l.map F
      rw [h a (List.mem_cons_self a l) cur]
      rw [ih (fun j hj cur2 => h j (List.mem_cons_of_mem a hj) cur2) (F a)]

/-- For each coarse range index `j < nsr` there is a unique tier `t`, and the
inner `k` loop yields `t` whatever `currFacSub` was carried in.  The
hypotheses say that the computed `limIdxs` is fully populated (so all its
reads are in bounds), strictly increasing, starts at 0 and was extended to
end at the border count. -/
lemma facStep_tier (s : SobElev)
    (hbin : 0 < s.binF)
    (hlen : s.lims.length = zmaxOf s.rayF + 2)
    (hchain : List.Chain' (· < ·) s.lims)
    (hhead : s.lims.getD 0 0 = 0)
    (hlast : s.lims.getD (zmaxOf s.rayF + 1) 0 = (s.rangeBorders.length : ℤ))
    (j : ℕ) (hj : j < s.nsr) :
    ∃ t : ℕ, t ≤ zmaxOf s.rayF ∧
      s.lims.getD t 0 ≤ (j:ℤ) ∧ (j:ℤ) < s.lims.getD (t+1) 0 ∧
      ∀ cur, facStep s.lims (hoofFacSubs (zmaxOf s.rayF)) j cur = (t:ℤ) := by
  have hrb : s.rangeBorders.length = s.nsr + 1 := by
    unfold SobElev.rangeBorders SobElev.nsr
    rw [calcRangeBorders_eq s.nr s.binF hbin]
    simp
  have hmono := getD_mono_of_chain s.lims hchain
  have hex := exists_tier (fun i => s.lims.getD i 0) (zmaxOf s.rayF + 1) (j:ℤ)
    (by
      show s.lims.getD 0 0 ≤ (j:ℤ)
      rw [hhead]
      exact Int.ofNat_nonneg j)
    (by
      show (j:ℤ) < s.lims.getD (zmaxOf s.rayF + 1) 0
      rw [hlast, hrb]
      have h2 : (j:ℤ) < (s.nsr:ℤ) + 1 := by exact_mod_cast Nat.lt_succ_of_lt hj
      simpa using h2)
  obtain ⟨t, ht, h1', h2'⟩ := hex
  have h1 : s.lims.getD t 0 ≤ (j:ℤ) := h1'
  have h2 : (j:ℤ) < s.lims.getD (t+1) 0 := h2'
  have htz : t ≤ zmaxOf s.rayF := by omega
  have huniq : ∀ k, k < zmaxOf s.rayF + 1 →
      (s.lims.getD k 0 ≤ (j:ℤ) ∧ (j:ℤ) < s.lims.getD (k+1) 0) → k = t := by
    intro k hk ⟨hk1, hk2⟩
    by_contra hne
    rcases Nat.lt_or_ge k t with hlt | hge
    · have := hmono (k+1) t (by omega) (by omega)
      omega
    · have hgt : t < k := by omega
      have := hmono (t+1) k (by omega) (by omega)
      omega
  refine ⟨t, htz, h1, h2, ?_⟩
  intro cur
  unfold facStep
  rw [hoofFacSubs_length]
  refine foldl_range_pick _ t ((t:ℕ):ℤ) (zmaxOf s.rayF + 1) (by omega) ?_ ?_ cur
  · intro acc
    rw [if_pos ⟨h1, h2⟩, hoofFacSubs_getD _ _ htz]
  · intro acc k hk hne
    rw [if_neg ?_]
    intro hc
    exact hne (huniq k hk hc)

/-- Claim C7 (amended): whenever the computed `limIdxs` table of an elevation
is fully populated (all reads in bounds), strictly increasing, starts at 0
and ends at the border count — as the construction arranges in practice —
the number of source rays per coarse cell, `endRay[j][k] - startRay[j][k]`,
is NON-INCREASING in the coarse range index `j`: near-range cells use at
least as many source rays as far-range cells, not fewer. -/
theorem C7_ray_count_mono (s : SobElev)
    (hbin : 0 < s.binF) (hray : 0 < s.rayF)
    (hlen : s.lims.length = zmaxOf s.rayF + 2)
    (hchain : List.Chain' (· < ·) s.lims)
    (hhead : s.lims.getD 0 0 = 0)
    (hlast : s.lims.getD (zmaxOf s.rayF + 1) 0 = (s.rangeBorders.length : ℤ))
    (j1 j2 k : ℕ) (hj : j1 ≤ j2) (hj2 : j2 < s.nsr) (hk : k < s.nsaz) :
    s.endRay j2 k - s.startRay j2 k ≤ s.endRay j1 k - s.startRay j1 k := by
  have hstep := fun (j : ℕ) (hj' : j < s.nsr) =>
    facStep_tier s hbin hlen hchain hhead hlast j hj'
  have hmap : facSubSeq s.lims (hoofFacSubs (zmaxOf s.rayF)) s.nsr
      = (List.range s.nsr).map
          (fun j => facStep s.lims (hoofFacSubs (zmaxOf s.rayF)) j 0) := by
    unfold facSubSeq
    refine facSubGo_const _ _ _ (List.range s.nsr) ?_ (-1)
    intro j hjr cur
    obtain ⟨t, -, -, -, hs⟩ := hstep j (List.mem_range.mp hjr)
    rw [hs cur, hs 0]
  have hfs : ∀ j, j < s.nsr → ∃ t : ℕ, t ≤ zmaxOf s.rayF ∧
      s.lims.getD t 0 ≤ (j:ℤ) ∧ (j:ℤ) < s.lims.getD (t+1) 0 ∧ s.facSub j = (t:ℤ) := by
    intro j hj'
    obtain ⟨t, ht, h1, h2, hs⟩ := hstep j hj'
    refine ⟨t, ht, h1, h2, ?_⟩
    unfold SobElev.facSub
    rw [hmap, List.getD_eq_getElem _ _ (by simpa using hj'), List.getElem_map,
      List.getElem_range]
    exact hs 0
  obtain ⟨t1, ht1, h11, h12, he1⟩ := hfs j1 (lt_of_le_of_lt hj hj2)
  obtain ⟨t2, ht2, h21, h22, he2⟩ := hfs j2 hj2
  have hmono := getD_mono_of_chain s.lims hchain
  have ht12 : t1 ≤ t2 := by
    by_contra hgt
    push_neg at hgt
    have hmm := hmono (t2+1) t1 (by omega) (by omega)
    have hc2 : (j1:ℤ) ≤ (j2:ℤ) := by exact_mod_cast hj
    omega
  have hkb : k < (s.naz + s.rayF - 1)/s.rayF := by
    have h2 : s.naz / s.rayF ≤ (s.naz + s.rayF - 1)/s.rayF :=
      Nat.div_le_div_right (by omega)
    unfold SobElev.nsaz at hk
    omega
  unfold SobElev.startRay SobElev.endRay
  rw [origStartRays_getD _ _ _ hkb, origEndRays_getD _ _ _ hkb, he1, he2]
  have hc : (t1:ℤ) ≤ (t2:ℤ) := by exact_mod_cast ht12
  omega

/-- The concrete elevation used to settle claim C7: naz = 3, nr = 32,
rscale = 270, binF = 4, rayF = 3, maxArcSize = 3/2 — so L = 30/Pi ≈ 9.55 and
the tier borders are [0, 3, 9]. -/
def sobEx : SobElev := ⟨3, 32, 270, 4, 3, 3/2⟩

lemma sobEx_rb_len : sobEx.rangeBorders.length = 9 := by decide

lemma sobEx_lims : sobEx.lims = [0, 3, 9] := by
  unfold SobElev.lims
  rw [sobEx_rb_len]
  show limIdxsOf (arcL 3 4 270 (3/2)) (zmaxOf 3) 9 = [0, 3, 9]
  norm_num [limIdxsOf, buildLims, buildLimGo, extendLim, limClamp, limIdxRaw, arcL,
    hoofPi, zmaxOf, List.range_succ, List.getLastD]

lemma sobEx_facSub : sobEx.facSub 2 = 0 ∧ sobEx.facSub 3 = 1 := by
  constructor <;> (unfold SobElev.facSub; rw [sobEx_lims]; decide)

/-- Claim C7 counterexample: in the concrete elevation `sobEx`, the coarse
cell at range index 2 spans 3 source rays while the farther cell at range
index 3 spans only 1: the per-cell ray count DECREASES as the coarse range
index grows, refuting the claimed non-decreasing direction (near-range cells
use more rays, not fewer). -/
theorem C7_counterexample :
    sobEx.startRay 2 0 = 0 ∧ sobEx.endRay 2 0 = 3 ∧
    sobEx.startRay 3 0 = 1 ∧ sobEx.endRay 3 0 = 2 ∧
    ¬ (sobEx.endRay 2 0 - sobEx.startRay 2 0 ≤ sobEx.endRay 3 0 - sobEx.startRay 3 0) := by
  obtain ⟨h2, h3⟩ := sobEx_facSub
  have ha : sobEx.startRay 2 0 = 0 := by
    unfold SobElev.startRay
    rw [h2]
    decide
  have hb : sobEx.endRay 2 0 = 3 := by
    unfold SobElev.endRay
    rw [h2]
    decide
  have hc : sobEx.startRay 3 0 = 1 := by
    unfold SobElev.startRay
    rw [h3]
    decide
  have hd : sobEx.endRay 3 0 = 2 := by
    unfold SobElev.endRay
    rw [h3]
    decide
  refine ⟨ha, hb, hc, hd, ?_⟩
  intro hle
  rw [ha, hb, hc, hd] at hle
  omega

/-- Witness for the amended C7 at the concrete elevation, comparing the
cells at coarse range indices 2 and 3. -/
theorem C7_witness :
    (0 < sobEx.binF ∧ sobEx.lims.length = zmaxOf sobEx.rayF + 2 ∧
      List.Chain' (· < ·) sobEx.lims ∧ sobEx.lims.getD 0 0 = 0 ∧
      sobEx.lims.getD (zmaxOf sobEx.rayF + 1) 0 = (sobEx.rangeBorders.length : ℤ) ∧
      3 < sobEx.nsr ∧ 0 < sobEx.nsaz) ∧
    sobEx.endRay 3 0 - sobEx.startRay 3 0 ≤ sobEx.endRay 2 0 - sobEx.startRay 2 0 := by
  have hl := sobEx_lims
  refine ⟨⟨by decide, ?_, ?_, ?_, ?_, by decide, by decide⟩, ?_⟩
  · rw [hl]
    decide
  · rw [hl]
    norm_num [List.chain'_cons]
  · rw [hl]
    decide
  · rw [hl, sobEx_rb_len]
    decide
  · exact C7_ray_count_mono sobEx (by decide) (by decide)
      (by rw [hl]; decide) (by rw [hl]; norm_num [List.chain'_cons]) (by rw [hl]; decide)
      (by rw [hl, sobEx_rb_len]; decide)
      2 3 0 (by omega) (by decide) (by decide)

end Hoof
